import Mathlib

/-!
Verification of the multi-band artificial-star covariance estimator
(`src/core/noisemodel/trunchen.py`, class `MultiFilterASTs`).

The numerical code is shallowly embedded: AST table values (input
magnitudes, recovered magnitudes, recovered flux ratios) are exact
rationals, and the derived statistics live in `ℝ` (the magnitude-to-flux
conversion `10.0 ** (-0.4*m)` and `np.sqrt` are irrational in general).
Machine floating point rounding is not modelled; the formulas are the
exact real-number semantics of the numpy expressions.
-/

/-- One AST table row restricted to the per-filter columns the estimator
reads: `<FILTER>_VEGA` (recovered magnitude, sentinel `>= 90` = not
recovered), `<FILTER>_RATE` (recovered flux ratio), `<FILTER>_IN` (input
magnitude).  Filters are indexed by position in the configured filter
list. -/
structure ASTInst (n : ℕ) where
  vega : Fin n → ℚ
  rate : Fin n → ℚ
  imag : Fin n → ℚ

instance {n : ℕ} : Inhabited (ASTInst n) :=
  ⟨⟨fun _ => 0, fun _ => 0, fun _ => 0⟩⟩

/-- Lines 100-106: `cgood`, the number of filters in which one AST
instance was recovered (recovered magnitude below the sentinel 90). -/
def recoveredCount {n : ℕ} (a : ASTInst n) : ℕ :=
  (Finset.univ.filter fun c => a.vega c < 90).card

/-- Lines 108-109: `indxs, = np.where(gtindxs > 0)` -- the instances
recovered in at least one filter, in table order. -/
def retainedOf {n : ℕ} (asts : List (ASTInst n)) : List (ASTInst n) :=
  asts.filter fun a => decide (0 < recoveredCount a)

/-- Line 127: `np.power(10.0, -0.4*m)`, the magnitude-to-flux
conversion. -/
noncomputable def magToFlux (m : ℚ) : ℝ :=
  (10 : ℝ) ^ ((-0.4 : ℝ) * (m : ℝ))

/-- `np.mean` of a vector: sum divided by length. -/
noncomputable def npMean (xs : List ℝ) : ℝ :=
  xs.sum / (xs.length : ℝ)

/-- `np.std` of a vector with the default `ddof=0`: the population
standard deviation `sqrt(mean((x - x.mean())**2))`, dividing by N (not
by N-1). -/
noncomputable def npStd (xs : List ℝ) : ℝ :=
  Real.sqrt (npMean (xs.map fun x => (x - npMean xs) ^ 2))

/-- Lines 126-127: the row of flux differences for filter `c` over the
retained instances `l`: recovered flux ratio minus the input flux
`10.0 ** (-0.4 * input magnitude)`. -/
noncomputable def astDiffs {n : ℕ} (l : List (ASTInst n)) (c : Fin n) : List ℝ :=
  l.map fun a => (a.rate c : ℝ) - magToFlux (a.imag c)

/-- Line 129: `biases[ck] = np.mean(diffs[ck,:])`. -/
noncomputable def astBias {n : ℕ} (l : List (ASTInst n)) (c : Fin n) : ℝ :=
  npMean (astDiffs l c)

/-- Line 130: `stddevs[ck] = np.std(diffs[ck,:])`. -/
noncomputable def astStd {n : ℕ} (l : List (ASTInst n)) (c : Fin n) : ℝ :=
  npStd (astDiffs l c)

/-- Lines 133-138: the covariance entry, accumulated over the retained
instances exactly as the `cov_matrix[ck,dk] +=` loop does, then divided
by `n_indxs - 1`. -/
noncomputable def astCov {n : ℕ} (l : List (ASTInst n)) (c d : Fin n) : ℝ :=
  ((List.range l.length).foldl
    (fun acc i =>
      acc + ((astDiffs l c).getD i 0 - astBias l c) *
            ((astDiffs l d).getD i 0 - astBias l d)) 0) /
  ((l.length : ℝ) - 1)

/-- Lines 141-147: the correlation entry, the covariance entry divided
in place by `stddevs[ck]*stddevs[dk]` when that product is positive and
overwritten with `0.0` otherwise. -/
noncomputable def astCorr {n : ℕ} (l : List (ASTInst n)) (c d : Fin n) : ℝ :=
  if 0 < astStd l c * astStd l d then astCov l c d / (astStd l c * astStd l d)
  else 0

/-- Line 122: `imags[ck] = asts[cfilter+'_IN'][indxs[0]]`, the input
magnitude of the first retained instance. -/
def astImags {n : ℕ} (l : List (ASTInst n)) (c : Fin n) : ℚ :=
  l.headI.imag c

/-- The `return_all=True` payload of `_calc_ast_cov` (line 150):
`(cov_matrix, biases, stddevs, corr_matrix, diffs, imags)` together with
the retained instance count `n_indxs`.  The `return_all=False` variant
is the projection to `(cov, bias)`. -/
structure ASTStats (n : ℕ) where
  cov : Fin n → Fin n → ℝ
  bias : Fin n → ℝ
  stddevs : Fin n → ℝ
  corr : Fin n → Fin n → ℝ
  diffs : Fin n → List ℝ
  imags : Fin n → ℚ
  nIndxs : ℕ

/-- The statistics `_calc_ast_cov` computes from the retained
instances. -/
noncomputable def astStatsOf {n : ℕ} (l : List (ASTInst n)) : ASTStats n :=
  ⟨astCov l, astBias l, astStd l, astCorr l, astDiffs l, astImags l, l.length⟩

/-- `_calc_ast_cov` (lines 58-152): discard the instances recovered in
zero filters; if at most 5 remain return `False` (here `none`),
otherwise return the computed statistics. -/
noncomputable def calcAstCov {n : ℕ} (asts : List (ASTInst n)) : Option (ASTStats n) :=
  if (retainedOf asts).length ≤ 5 then none
  else some (astStatsOf (retainedOf asts))

/-- Splitting `calcAstCov`: a `some` result forces more than 5 retained
instances and pins down the payload. -/
theorem calcAstCov_some {n : ℕ} {asts : List (ASTInst n)} {s : ASTStats n}
    (h : calcAstCov asts = some s) :
    5 < (retainedOf asts).length ∧ s = astStatsOf (retainedOf asts) := by
  unfold calcAstCov at h
  by_cases hle : (retainedOf asts).length ≤ 5
  · simp [hle] at h
  · simp [hle] at h
    exact ⟨Nat.lt_of_not_le hle, h.symm⟩

/-- Summing a function over `List.range` by left fold agrees with the
`Finset.range` sum. -/
theorem foldl_add_range (f : ℕ → ℝ) (n : ℕ) :
    (List.range n).foldl (fun acc i => acc + f i) 0 = ∑ i ∈ Finset.range n, f i := by
  have h : ∀ (m : ℕ) (a : ℝ),
      (List.range m).foldl (fun acc i => acc + f i) a = a + ∑ i ∈ Finset.range m, f i := by
    intro m
    induction m with
    | zero => intro a; simp
    | succ k ih =>
      intro a
      rw [List.range_succ, List.foldl_append, Finset.sum_range_succ, ih]
      simp [add_assoc]
  simpa using h n 0

/-- The sum of a function mapped over a list, rewritten as an indexed
sum over positions. -/
theorem map_sum_getD (xs : List ℝ) (g : ℝ → ℝ) :
    (xs.map g).sum = ∑ i ∈ Finset.range xs.length, g (xs.getD i 0) := by
  induction xs with
  | nil => simp
  | cons x t ih =>
    rw [List.map_cons, List.sum_cons, List.length_cons, Finset.sum_range_succ']
    simp [ih, add_comm]

/-! ## The bulk aggregator `_calc_all_ast_cov` (lines 155-223) -/

/-- One stacked output row of `_calc_all_ast_cov`: slices of
`(all_covs, all_biases, all_corrs, np.power(10.0, -0.4*all_imags))`. -/
structure ASTModelRow (n : ℕ) where
  cov : Fin n → Fin n → ℝ
  bias : Fin n → ℝ
  corr : Fin n → Fin n → ℝ
  iflux : Fin n → ℝ

/-- Lines 185-187: the distinct values of the reference (last) filter's
input-magnitude column.  `np.unique` returns them sorted; the aggregator
is stated over at least one filter (`m + 1` filters, the reference
filter being index `m`). -/
def uniqueRefVals {m : ℕ} (table : List (ASTInst (m + 1))) : List ℚ :=
  ((table.map fun r => r.imag (Fin.last m)).dedup).insertionSort (· ≤ ·)

/-- Line 206: the rows of the table whose reference-filter input
magnitude equals `v` (one Model Group). -/
def groupOf {m : ℕ} (table : List (ASTInst (m + 1))) (v : ℚ) : List (ASTInst (m + 1)) :=
  table.filter fun r => decide (r.imag (Fin.last m) = v)

/-- Lines 198-220: `good_asts[i]` stays `True` unless the group had more
than 5 rows and `_calc_ast_cov` still rejected it.  A group with at most
5 rows is never marked bad (the `n_asts > 5` guard has no `else`
branch). -/
def goodAst {m : ℕ} (table : List (ASTInst (m + 1))) (v : ℚ) : Bool :=
  ! (5 < (groupOf table v).length && (retainedOf (groupOf table v)).length ≤ 5)

/-- The stacked row built from a non-rejected group's statistics: lines
213-216 and the flux conversion of line 223. -/
noncomputable def rowOfStats {n : ℕ} (l : List (ASTInst n)) : ASTModelRow n :=
  ⟨astCov l, astBias l, astCorr l, fun c => magToFlux (astImags l c)⟩

/-- `_calc_all_ast_cov` (lines 155-223): loop over the distinct
reference-magnitude values; groups with more than 5 rows get their
statistics stored; rejected groups (more than 5 rows but at most 5
retained) are dropped at line 220-223; groups with at most 5 rows keep
their `np.empty` allocation, modelled by the `uninit` parameter giving
those rows' (arbitrary, uninitialized) contents. -/
noncomputable def calcAllAstCov {m : ℕ} (table : List (ASTInst (m + 1)))
    (uninit : ℚ → ASTModelRow (m + 1)) : List (ASTModelRow (m + 1)) :=
  ((uniqueRefVals table).filter fun v => goodAst table v).map fun v =>
    if 5 < (groupOf table v).length then rowOfStats (retainedOf (groupOf table v))
    else uninit v

/-! ## Concrete example data

A single-filter AST table.  Six instances at input magnitude 0, all
recovered (`VEGA = 0 < 90`), with recovered flux ratios alternating
between 2 and 0: since `10.0 ** (-0.4*0) = 1`, the flux differences are
`1, -1, 1, -1, 1, -1`.  Three further instances at input magnitude 5
form a second, 3-row group. -/

/-- A recovered single-filter instance at input magnitude 0 with
recovered flux ratio `r`. -/
def exInst (r : ℚ) : ASTInst 1 :=
  ⟨fun _ => 0, fun _ => r, fun _ => 0⟩

/-- Six recovered instances with flux differences `1,-1,1,-1,1,-1`. -/
def exAsts : List (ASTInst 1) :=
  [exInst 2, exInst 0, exInst 2, exInst 0, exInst 2, exInst 0]

/-- A recovered single-filter instance at input magnitude 5. -/
def exInstB : ASTInst 1 :=
  ⟨fun _ => 0, fun _ => 1, fun _ => 5⟩

/-- The two-group table: a 6-row group at magnitude 0 and a 3-row group
at magnitude 5. -/
def exTable : List (ASTInst 1) :=
  exAsts ++ [exInstB, exInstB, exInstB]

theorem length_astDiffs {n : ℕ} (l : List (ASTInst n)) (c : Fin n) :
    (astDiffs l c).length = l.length := by
  unfold astDiffs
  simp

/-- The diagonal covariance entry as a sum of squared deviations over
the difference row. -/
theorem astCov_diag_eq {n : ℕ} (l : List (ASTInst n)) (c : Fin n) :
    astCov l c c =
      ((astDiffs l c).map fun x => (x - astBias l c) ^ 2).sum / ((l.length : ℝ) - 1) := by
  unfold astCov
  rw [foldl_add_range, map_sum_getD, length_astDiffs]
  congr 1
  refine Finset.sum_congr rfl fun i _ => ?_
  ring

theorem retainedOf_exAsts : retainedOf exAsts = exAsts := rfl

theorem magToFlux_zero : magToFlux 0 = 1 := by
  unfold magToFlux
  norm_num

theorem astDiffs_exAsts : astDiffs exAsts 0 = [1, -1, 1, -1, 1, -1] := by
  unfold astDiffs exAsts exInst
  simp [magToFlux_zero]
  norm_num

theorem astBias_exAsts : astBias exAsts 0 = 0 := by
  unfold astBias npMean
  rw [astDiffs_exAsts]
  norm_num

theorem astStd_exAsts : astStd exAsts 0 = 1 := by
  unfold astStd npStd
  rw [show npMean (astDiffs exAsts 0) = astBias exAsts 0 from rfl, astBias_exAsts,
    astDiffs_exAsts]
  unfold npMean
  norm_num

theorem astCov_exAsts : astCov exAsts 0 0 = 6 / 5 := by
  rw [astCov_diag_eq, astBias_exAsts, astDiffs_exAsts,
    show exAsts.length = 6 from rfl]
  norm_num

/-! ## Shared lemmas about the per-model statistics -/

/-- The covariance entry as an indexed finite sum. -/
theorem astCov_eq_sum {n : ℕ} (l : List (ASTInst n)) (c d : Fin n) :
    astCov l c d =
      (∑ i ∈ Finset.range l.length,
        ((astDiffs l c).getD i 0 - astBias l c) *
        ((astDiffs l d).getD i 0 - astBias l d)) / ((l.length : ℝ) - 1) := by
  unfold astCov
  rw [foldl_add_range]

/-- The bias in closed form: the difference sum over the retained
instance count. -/
theorem astBias_eq {n : ℕ} (l : List (ASTInst n)) (c : Fin n) :
    astBias l c = (astDiffs l c).sum / (l.length : ℝ) := by
  unfold astBias npMean
  rw [length_astDiffs]

/-- The standard deviation in closed form: square root of the mean of
the squared deviations from the bias. -/
theorem astStd_eq {n : ℕ} (l : List (ASTInst n)) (c : Fin n) :
    astStd l c = Real.sqrt
      (((astDiffs l c).map fun x => (x - astBias l c) ^ 2).sum / (l.length : ℝ)) := by
  unfold astStd npStd
  congr 1
  show npMean _ = _
  unfold npMean
  rw [List.length_map, length_astDiffs, astBias_eq]

theorem sumSq_nonneg {n : ℕ} (l : List (ASTInst n)) (c : Fin n) :
    0 ≤ ((astDiffs l c).map fun x => (x - astBias l c) ^ 2).sum := by
  apply List.sum_nonneg
  intro x hx
  simp only [List.mem_map] at hx
  obtain ⟨y, _, rfl⟩ := hx
  positivity

theorem astStd_sq {n : ℕ} (l : List (ASTInst n)) (c : Fin n) :
    astStd l c ^ 2 =
      ((astDiffs l c).map fun x => (x - astBias l c) ^ 2).sum / (l.length : ℝ) := by
  rw [astStd_eq, Real.sq_sqrt (div_nonneg (sumSq_nonneg l c) (Nat.cast_nonneg _))]

theorem astStd_nonneg {n : ℕ} (l : List (ASTInst n)) (c : Fin n) :
    0 ≤ astStd l c := by
  rw [astStd_eq]
  exact Real.sqrt_nonneg _

/-- Bridging the indexed squared-deviation sum with the mapped list
sum. -/
theorem sum_getD_sq {n : ℕ} (l : List (ASTInst n)) (c : Fin n) (b : ℝ) :
    (∑ i ∈ Finset.range l.length, ((astDiffs l c).getD i 0 - b) ^ 2) =
      ((astDiffs l c).map fun x => (x - b) ^ 2).sum := by
  rw [map_sum_getD, length_astDiffs]

/-- The instances recovered in at least one filter are exactly those
whose recovered-filter count is positive. -/
theorem retainedOf_eq_filter_recovered {n : ℕ} (asts : List (ASTInst n)) :
    retainedOf asts = asts.filter fun a => decide (∃ c, a.vega c < 90) := by
  unfold retainedOf recoveredCount
  refine List.filter_congr fun a _ => ?_
  simp [Finset.card_pos, Finset.filter_nonempty_iff]

/-- C7: the Per-Model Statistics Estimator returns Rejected exactly when,
after discarding the AST instances recovered in zero filters (an
instance counts as recovered in a filter when its recovered magnitude is
below the sentinel 90), fewer than 6 instances remain; otherwise it
returns the computed statistics. -/
theorem estimator_rejects_iff_fewer_than_six {n : ℕ} (asts : List (ASTInst n)) :
    (calcAstCov asts = none ↔
      (asts.filter fun a => decide (∃ c, a.vega c < 90)).length < 6) ∧
    (¬ (asts.filter fun a => decide (∃ c, a.vega c < 90)).length < 6 →
      calcAstCov asts = some (astStatsOf (retainedOf asts))) := by
  rw [← retainedOf_eq_filter_recovered asts]
  constructor
  · unfold calcAstCov
    by_cases h : (retainedOf asts).length ≤ 5
    · simp [h]
      omega
    · simp [h]
      omega
  · intro h
    unfold calcAstCov
    rw [if_neg (by omega)]

/-- Witness for C7 at the concrete six-instance table: not rejected, and
the statistics payload is returned. -/
theorem estimator_rejects_iff_fewer_than_six_witness :
    (calcAstCov exAsts = none ↔
      (exAsts.filter fun a => decide (∃ c, a.vega c < 90)).length < 6) ∧
    calcAstCov exAsts = some (astStatsOf (retainedOf exAsts)) :=
  ⟨(estimator_rejects_iff_fewer_than_six exAsts).1,
   (estimator_rejects_iff_fewer_than_six exAsts).2 (by
      rw [← retainedOf_eq_filter_recovered exAsts, retainedOf_exAsts]
      norm_num [exAsts])⟩

/-- C2: for a non-rejected Model Group with K retained instances, the
per-instance difference in each filter is the recovered flux ratio minus
`10 ** (-0.4 * input magnitude)`, the bias is the mean of these
differences, and covariance entry `(c, d)` is `1/(K-1)` times the sum
over instances of `(diff_c - bias_c) * (diff_d - bias_d)` -- the
unbiased sample covariance. -/
theorem estimator_diff_bias_cov_formulas {n : ℕ} (asts : List (ASTInst n))
    (s : ASTStats n) (c d : Fin n) (h : calcAstCov asts = some s) :
    s.diffs c = (retainedOf asts).map
      (fun a => (a.rate c : ℝ) - (10 : ℝ) ^ ((-0.4 : ℝ) * (a.imag c : ℝ))) ∧
    s.bias c = (∑ i ∈ Finset.range s.nIndxs, (s.diffs c).getD i 0) / (s.nIndxs : ℝ) ∧
    s.cov c d = (1 / ((s.nIndxs : ℝ) - 1)) *
      ∑ i ∈ Finset.range s.nIndxs,
        ((s.diffs c).getD i 0 - s.bias c) * ((s.diffs d).getD i 0 - s.bias d) := by
  obtain ⟨-, rfl⟩ := calcAstCov_some h
  refine ⟨rfl, ?_, ?_⟩
  · show astBias (retainedOf asts) c = _
    rw [astBias_eq]
    congr 1
    have := map_sum_getD (astDiffs (retainedOf asts) c) id
    rw [List.map_id, length_astDiffs] at this
    exact this
  · show astCov (retainedOf asts) c d = _
    rw [astCov_eq_sum, div_eq_mul_inv, mul_comm, ← one_div]
    rfl

/-- Witness for C2 at the concrete six-instance table. -/
theorem estimator_diff_bias_cov_formulas_witness :
    (astStatsOf (retainedOf exAsts)).diffs 0 = (retainedOf exAsts).map
      (fun a => (a.rate 0 : ℝ) - (10 : ℝ) ^ ((-0.4 : ℝ) * (a.imag 0 : ℝ))) ∧
    (astStatsOf (retainedOf exAsts)).bias 0 =
      (∑ i ∈ Finset.range (astStatsOf (retainedOf exAsts)).nIndxs,
        ((astStatsOf (retainedOf exAsts)).diffs 0).getD i 0) /
      ((astStatsOf (retainedOf exAsts)).nIndxs : ℝ) ∧
    (astStatsOf (retainedOf exAsts)).cov 0 0 =
      (1 / (((astStatsOf (retainedOf exAsts)).nIndxs : ℝ) - 1)) *
      ∑ i ∈ Finset.range (astStatsOf (retainedOf exAsts)).nIndxs,
        (((astStatsOf (retainedOf exAsts)).diffs 0).getD i 0 -
          (astStatsOf (retainedOf exAsts)).bias 0) *
        (((astStatsOf (retainedOf exAsts)).diffs 0).getD i 0 -
          (astStatsOf (retainedOf exAsts)).bias 0) :=
  estimator_diff_bias_cov_formulas exAsts (astStatsOf (retainedOf exAsts)) 0 0 rfl

/-- C5 counterexample: at the concrete six-instance group the stored
standard deviation (numpy `np.std`, N divisor) differs from the
Bessel-corrected sample form, i.e. from the square root of the stored
covariance diagonal (which does use the N-1 divisor). -/
theorem stddev_not_bessel_cex :
    (astStatsOf (retainedOf exAsts)).stddevs 0 ≠
      Real.sqrt ((astStatsOf (retainedOf exAsts)).cov 0 0) := by
  show astStd (retainedOf exAsts) 0 ≠ Real.sqrt (astCov (retainedOf exAsts) 0 0)
  rw [retainedOf_exAsts, astStd_exAsts, astCov_exAsts]
  intro h
  have h2 : (1 : ℝ) ^ 2 = Real.sqrt (6 / 5) ^ 2 := by rw [h]
  rw [Real.sq_sqrt (by norm_num : (0:ℝ) ≤ 6 / 5)] at h2
  norm_num at h2

/-- C5 amended: the per-filter standard deviation uses the population
(N divisor) form -- `np.std` with its default `ddof=0` -- so it is NOT
consistent with the N-1 divisor of the covariance: the covariance
diagonal equals `K/(K-1)` times the squared standard deviation. -/
theorem stddev_population_form {n : ℕ} (asts : List (ASTInst n)) (s : ASTStats n)
    (c : Fin n) (h : calcAstCov asts = some s) :
    s.stddevs c = Real.sqrt
      ((∑ i ∈ Finset.range s.nIndxs, ((s.diffs c).getD i 0 - s.bias c) ^ 2) /
        (s.nIndxs : ℝ)) ∧
    s.cov c c = ((s.nIndxs : ℝ) / ((s.nIndxs : ℝ) - 1)) * s.stddevs c ^ 2 := by
  obtain ⟨hlen, rfl⟩ := calcAstCov_some h
  set l := retainedOf asts with hl
  have hK : (6 : ℝ) ≤ (l.length : ℝ) := by exact_mod_cast hlen
  have hK0 : (l.length : ℝ) ≠ 0 := by linarith
  have hK1 : (l.length : ℝ) - 1 ≠ 0 := by linarith
  constructor
  · show astStd l c = Real.sqrt
      ((∑ i ∈ Finset.range l.length, ((astDiffs l c).getD i 0 - astBias l c) ^ 2) /
        (l.length : ℝ))
    rw [astStd_eq, sum_getD_sq]
  · show astCov l c c = ((l.length : ℝ) / ((l.length : ℝ) - 1)) * astStd l c ^ 2
    rw [astCov_diag_eq, astStd_sq]
    field_simp
    ring

/-- Witness for the amended C5 at the concrete six-instance table. -/
theorem stddev_population_form_witness :
    (astStatsOf (retainedOf exAsts)).stddevs 0 = Real.sqrt
      ((∑ i ∈ Finset.range (astStatsOf (retainedOf exAsts)).nIndxs,
        (((astStatsOf (retainedOf exAsts)).diffs 0).getD i 0 -
          (astStatsOf (retainedOf exAsts)).bias 0) ^ 2) /
        ((astStatsOf (retainedOf exAsts)).nIndxs : ℝ)) ∧
    (astStatsOf (retainedOf exAsts)).cov 0 0 =
      (((astStatsOf (retainedOf exAsts)).nIndxs : ℝ) /
        (((astStatsOf (retainedOf exAsts)).nIndxs : ℝ) - 1)) *
      (astStatsOf (retainedOf exAsts)).stddevs 0 ^ 2 :=
  stddev_population_form exAsts (astStatsOf (retainedOf exAsts)) 0 rfl

/-- C6 counterexample: at the concrete six-instance group the
correlation diagonal entry is 6/5, not 1, although the standard
deviation is positive (a consequence of dividing the N-1 covariance by
the square of the N-divisor standard deviation). -/
theorem corr_diagonal_not_one_cex :
    ¬ ((astStatsOf (retainedOf exAsts)).corr 0 0 = 1 ∨
      ((astStatsOf (retainedOf exAsts)).stddevs 0 = 0 ∧
        (astStatsOf (retainedOf exAsts)).corr 0 0 = 0)) := by
  have hstd : (astStatsOf (retainedOf exAsts)).stddevs 0 = 1 := by
    show astStd (retainedOf exAsts) 0 = 1
    rw [retainedOf_exAsts]
    exact astStd_exAsts
  have hcorr : (astStatsOf (retainedOf exAsts)).corr 0 0 = 6 / 5 := by
    show astCorr (retainedOf exAsts) 0 0 = 6 / 5
    rw [retainedOf_exAsts]
    unfold astCorr
    rw [astStd_exAsts, astCov_exAsts]
    norm_num
  rw [hstd, hcorr]
  norm_num

/-- C6 amended: the correlation entry is covariance over the product of
standard deviations when that product is positive and 0 otherwise, but
the diagonal entries equal `K/(K-1)` (not 1) when the filter's standard
deviation is positive, and 0 when it vanishes. -/
theorem corr_formula_and_diagonal {n : ℕ} (asts : List (ASTInst n)) (s : ASTStats n)
    (c d : Fin n) (h : calcAstCov asts = some s) :
    s.corr c d = (if 0 < s.stddevs c * s.stddevs d
      then s.cov c d / (s.stddevs c * s.stddevs d) else 0) ∧
    s.corr c c = (if 0 < s.stddevs c
      then (s.nIndxs : ℝ) / ((s.nIndxs : ℝ) - 1) else 0) := by
  obtain ⟨hlen, rfl⟩ := calcAstCov_some h
  set l := retainedOf asts with hl
  have hK : (6 : ℝ) ≤ (l.length : ℝ) := by exact_mod_cast hlen
  have hK0 : (l.length : ℝ) ≠ 0 := by linarith
  have hK1 : (l.length : ℝ) - 1 ≠ 0 := by linarith
  refine ⟨rfl, ?_⟩
  show astCorr l c c = if 0 < astStd l c
    then (l.length : ℝ) / ((l.length : ℝ) - 1) else 0
  rcases lt_or_eq_of_le (astStd_nonneg l c) with hpos | hzero
  · rw [if_pos hpos]
    unfold astCorr
    rw [if_pos (mul_pos hpos hpos)]
    have hsq : 0 < astStd l c ^ 2 := pow_pos hpos 2
    rw [astStd_sq] at hsq
    have hS : 0 < ((astDiffs l c).map fun x => (x - astBias l c) ^ 2).sum := by
      rcases div_pos_iff.mp hsq with ⟨h1, -⟩ | ⟨-, h2⟩
      · exact h1
      · linarith
    rw [show astStd l c * astStd l c = astStd l c ^ 2 by ring, astStd_sq,
      astCov_diag_eq]
    field_simp
    ring
  · have hz : astStd l c = 0 := hzero.symm
    unfold astCorr
    rw [hz]
    simp

/-- Witness for the amended C6 at the concrete six-instance table. -/
theorem corr_formula_and_diagonal_witness :
    (astStatsOf (retainedOf exAsts)).corr 0 0 =
      (if 0 < (astStatsOf (retainedOf exAsts)).stddevs 0 *
        (astStatsOf (retainedOf exAsts)).stddevs 0
      then (astStatsOf (retainedOf exAsts)).cov 0 0 /
        ((astStatsOf (retainedOf exAsts)).stddevs 0 *
          (astStatsOf (retainedOf exAsts)).stddevs 0) else 0) ∧
    (astStatsOf (retainedOf exAsts)).corr 0 0 =
      (if 0 < (astStatsOf (retainedOf exAsts)).stddevs 0
      then ((astStatsOf (retainedOf exAsts)).nIndxs : ℝ) /
        (((astStatsOf (retainedOf exAsts)).nIndxs : ℝ) - 1) else 0) :=
  corr_formula_and_diagonal exAsts (astStatsOf (retainedOf exAsts)) 0 0 rfl

/-- C1 (code defect): on the two-group table the aggregator output has
length 2, not 1: the 3-row group at magnitude 5 (only 3 usable
instances, fewer than 6) is NOT excluded -- its output row is the
untouched `np.empty` allocation (`uninit 5`), because `good_asts` is
never cleared for groups with at most 5 rows -- while the claim-side
count of groups with at least 6 usable instances is 1. -/
theorem aggregator_keeps_placeholder_row (uninit : ℚ → ASTModelRow 1) :
    (calcAllAstCov exTable uninit).length = 2 ∧
    (calcAllAstCov exTable uninit)[1]? = some (uninit 5) ∧
    (retainedOf (groupOf exTable 5)).length = 3 ∧
    ((uniqueRefVals exTable).filter
      fun v => decide (6 ≤ (retainedOf (groupOf exTable v)).length)).length = 1 := by
  have hfilter : ((uniqueRefVals exTable).filter fun v => goodAst exTable v) = [0, 5] := by
    decide
  refine ⟨?_, ?_, by decide, by decide⟩
  · unfold calcAllAstCov
    rw [hfilter]
    rfl
  · have h1 : (calcAllAstCov exTable uninit)[1]? =
        some (if 5 < (groupOf exTable 5).length
          then rowOfStats (retainedOf (groupOf exTable 5)) else uninit 5) := by
      unfold calcAllAstCov
      rw [hfilter]
      rfl
    rw [h1, if_neg (by decide)]

/-! ## The interpolator `__call__` (lines 250-333) and `process_asts`
(lines 225-248)

The noise model state consumed by `__call__`: the per-filter vega
reference fluxes (line 56), the stacked covariance matrices and the
input-flux rows produced by `process_asts` (lines 241-247).  The scipy
`cKDTree` built over `np.log10(input_fluxes)` is modelled semantically:
a k-nearest-neighbor query returns the point indices sorted by
Euclidean distance; when more neighbors are requested than points
exist, scipy pads the result with the out-of-range index `n` (and an
infinite distance, which has no real-number counterpart here; that
padded regime makes the subsequent numpy fancy indexing raise, see the
neighbor-count analysis below). -/
structure TrunchenModel (nf : ℕ) where
  vega_flux : Fin nf → ℝ
  cov_matrices : List (Matrix (Fin nf) (Fin nf) ℝ)
  input_fluxes : List (Fin nf → ℝ)

/-- Line 247: the kd-tree points, `np.log10(self._input_fluxes)`. -/
noncomputable def kdPoints {nf : ℕ} (M : TrunchenModel nf) : List (Fin nf → ℝ) :=
  M.input_fluxes.map fun v c => Real.logb 10 (v c)

/-- Euclidean distance between coordinate vectors (the cKDTree default
2-norm). -/
noncomputable def euclidDist {nf : ℕ} (a b : Fin nf → ℝ) : ℝ :=
  Real.sqrt (∑ c, (a c - b c) ^ 2)

/-- Line 291: the literal neighbor count passed to
`self._kdtree.query(np.log10(cur_flux), 10)`. -/
def queryNeighborCount : ℕ := 10

/-- Line 280: `n_models = 10`, the hard-coded override replacing the
true grid row count just before the evaluation loop. -/
def nModelsOverride : ℕ := 10

/-- The index component of `cKDTree.query(q, k)`: point indices sorted
by distance to `q`, truncated to `k`, padded with the out-of-range
index `pts.length` when fewer than `k` points exist. -/
noncomputable def nnIndices {nf : ℕ} (pts : List (Fin nf → ℝ)) (q : Fin nf → ℝ)
    (k : ℕ) : List ℕ :=
  (((List.range pts.length).insertionSort fun i j =>
      euclidDist q (pts.getD i fun _ => 0) ≤ euclidDist q (pts.getD j fun _ => 0)).take k) ++
  List.replicate (k - pts.length) pts.length

/-- The distance component of `cKDTree.query(q, k)` for the returned
indices. -/
noncomputable def nnDists {nf : ℕ} (pts : List (Fin nf → ℝ)) (q : Fin nf → ℝ)
    (k : ℕ) : List ℝ :=
  (nnIndices pts q k).map fun j => euclidDist q (pts.getD j fun _ => 0)

/-- Lines 298-299: `dist_weights = 1.0/dist; dist_weights /=
np.sum(dist_weights)`. -/
noncomputable def distWeights (ds : List ℝ) : List ℝ :=
  (ds.map fun d => 1 / d).map fun w => w / (ds.map fun d => 1 / d).sum

/-- Lines 301-303: `np.average(cov_matrices[indxs], axis=0,
weights=dist_weights)`, the weighted element-wise mean, dividing by the
weight sum. -/
noncomputable def weightedAvgCov {nf : ℕ} (covs : List (Matrix (Fin nf) (Fin nf) ℝ))
    (idxs : List ℕ) (w : List ℝ) : Matrix (Fin nf) (Fin nf) ℝ :=
  Matrix.of fun c d =>
    (∑ j ∈ Finset.range idxs.length, w.getD j 0 * (covs.getD (idxs.getD j 0) 0) c d) /
    w.sum

/-- Line 288: `cur_flux = flux[i,:]/self.vega_flux`. -/
noncomputable def curFlux {nf : ℕ} (M : TrunchenModel nf) (flux : ℕ → Fin nf → ℝ)
    (i : ℕ) : Fin nf → ℝ :=
  fun c => flux i c / M.vega_flux c

/-- Line 291: the query point `np.log10(cur_flux)`. -/
noncomputable def queryPoint {nf : ℕ} (M : TrunchenModel nf) (flux : ℕ → Fin nf → ℝ)
    (i : ℕ) : Fin nf → ℝ :=
  fun c => Real.logb 10 (curFlux M flux i c)

/-- Lines 290-303: `cur_cov_matrix`, the distance-weighted interpolated
covariance matrix of grid row `i`. -/
noncomputable def interpCovMatrix {nf : ℕ} (M : TrunchenModel nf)
    (flux : ℕ → Fin nf → ℝ) (i : ℕ) : Matrix (Fin nf) (Fin nf) ℝ :=
  weightedAvgCov M.cov_matrices
    (nnIndices (kdPoints M) (queryPoint M flux i) queryNeighborCount)
    (distWeights (nnDists (kdPoints M) (queryPoint M flux i) queryNeighborCount))

/-- Line 309: `inv_cur_cov_matrix = np.linalg.inv(cur_cov_matrix)`. -/
noncomputable def rowInvCov {nf : ℕ} (M : TrunchenModel nf)
    (flux : ℕ → Fin nf → ℝ) (i : ℕ) : Matrix (Fin nf) (Fin nf) ℝ :=
  (interpCovMatrix M flux i)⁻¹

/-- Line 306: `sigmas[i,:] = np.sqrt(np.diagonal(cur_cov_matrix))`. -/
noncomputable def rowSigmas {nf : ℕ} (M : TrunchenModel nf)
    (flux : ℕ → Fin nf → ℝ) (i : ℕ) : Fin nf → ℝ :=
  fun c => Real.sqrt (interpCovMatrix M flux i c c)

/-- View of an `nf`-square matrix as a natural-number-indexed function,
0 outside the index range. -/
def matToFun {nf : ℕ} (A : Matrix (Fin nf) (Fin nf) ℝ) : ℕ → ℕ → ℝ :=
  fun k l => if h : k < nf ∧ l < nf then A ⟨k, h.1⟩ ⟨l, h.2⟩ else 0

/-- Lines 311-319 (off-diagonal part): the strictly-upper entries of the
inverse covariance packed in the `m`-counter order -- for each row
`k = 0 .. nf-2`, the columns `l = k+1 .. nf-1` in increasing order. -/
def packOffdiag (nf : ℕ) (f : ℕ → ℕ → ℝ) : List ℝ :=
  (List.range (nf - 1)).foldr
    (fun k acc => ((List.range (nf - 1 - k)).map fun t => f k (k + 1 + t)) ++ acc) []

/-- Lines 313-316 (diagonal part): `icov_diag[i,k] =
inv_cur_cov_matrix[k,k]` (the code writes index `nf-1` first and the
rest in the loop; the net effect is the full diagonal). -/
noncomputable def rowICovDiag {nf : ℕ} (M : TrunchenModel nf)
    (flux : ℕ → Fin nf → ℝ) (i : ℕ) : Fin nf → ℝ :=
  fun k => rowInvCov M flux i k k

/-- Lines 317-319: the packed off-diagonal row. -/
noncomputable def rowICovOffdiag {nf : ℕ} (M : TrunchenModel nf)
    (flux : ℕ → Fin nf → ℝ) (i : ℕ) : List ℝ :=
  packOffdiag nf (matToFun (rowInvCov M flux i))

/-- Lines 325-331: `q_norm[i] = -0.5*det[1]` where `det =
np.linalg.slogdet(cur_cov_matrix)` returns the log of the absolute
determinant as its second component. -/
noncomputable def rowQnorm {nf : ℕ} (M : TrunchenModel nf)
    (flux : ℕ → Fin nf → ℝ) (i : ℕ) : ℝ :=
  -0.5 * Real.log |(interpCovMatrix M flux i).det|

/-- The six output arrays of `__call__` (lines 273-278), allocated with
`np.empty` before the loop; rows are indexed by natural numbers and the
initial contents are arbitrary (supplied as the starting state). -/
structure CallState (nf : ℕ) where
  bias : ℕ → Fin nf → ℝ
  sigmas : ℕ → Fin nf → ℝ
  icov_diag : ℕ → Fin nf → ℝ
  icov_offdiag : ℕ → List ℝ
  q_norm : ℕ → ℝ
  compl : ℕ → Fin nf → ℝ

/-- One iteration of the evaluation loop (lines 286-331): row `i` of
`sigmas`, `icov_diag`, `icov_offdiag` and `q_norm` is overwritten;
`bias` and `compl` are never assigned. -/
noncomputable def callStep {nf : ℕ} (M : TrunchenModel nf) (flux : ℕ → Fin nf → ℝ)
    (i : ℕ) (s : CallState nf) : CallState nf :=
  { s with
    sigmas := Function.update s.sigmas i (rowSigmas M flux i)
    icov_diag := Function.update s.icov_diag i (rowICovDiag M flux i)
    icov_offdiag := Function.update s.icov_offdiag i (rowICovOffdiag M flux i)
    q_norm := Function.update s.q_norm i (rowQnorm M flux i) }

/-- The state of the six arrays when control reaches the `return`
statement of `__call__`: the loop runs over `range(n_models)` AFTER
`n_models` has been overwritten with 10 (line 280), regardless of the
grid's true row count.  (The `n_filters` consistency check of lines
269-271 is enforced statically here by typing both the grid fluxes and
the model with the same `nf`.) -/
noncomputable def callArrays {nf : ℕ} (M : TrunchenModel nf) (flux : ℕ → Fin nf → ℝ)
    (s0 : CallState nf) : CallState nf :=
  (List.range nModelsOverride).foldl (fun s i => callStep M flux i s) s0

/-- Folding the loop over rows not in the index list leaves the four
written arrays untouched at any absent row index. -/
theorem callFold_untouched {nf : ℕ} (M : TrunchenModel nf) (flux : ℕ → Fin nf → ℝ)
    (l : List ℕ) (s : CallState nf) (i : ℕ) (h : i ∉ l) :
    (l.foldl (fun s j => callStep M flux j s) s).sigmas i = s.sigmas i ∧
    (l.foldl (fun s j => callStep M flux j s) s).icov_diag i = s.icov_diag i ∧
    (l.foldl (fun s j => callStep M flux j s) s).icov_offdiag i = s.icov_offdiag i ∧
    (l.foldl (fun s j => callStep M flux j s) s).q_norm i = s.q_norm i := by
  induction l generalizing s with
  | nil => exact ⟨rfl, rfl, rfl, rfl⟩
  | cons a t ih =>
    have hne : i ≠ a := fun hia => h (hia ▸ List.mem_cons_self a t)
    have hnt : i ∉ t := fun hit => h (List.mem_cons_of_mem a hit)
    simp only [List.foldl_cons]
    obtain ⟨h1, h2, h3, h4⟩ := ih (callStep M flux a s) hnt
    refine ⟨h1.trans ?_, h2.trans ?_, h3.trans ?_, h4.trans ?_⟩ <;>
      simp [callStep, Function.update_noteq hne]

/-- Folding the loop over a list containing row `i` stores the computed
row values there (later iterations do not depend on earlier state). -/
theorem callFold_written {nf : ℕ} (M : TrunchenModel nf) (flux : ℕ → Fin nf → ℝ)
    (l : List ℕ) (s : CallState nf) (i : ℕ) (h : i ∈ l) :
    (l.foldl (fun s j => callStep M flux j s) s).sigmas i = rowSigmas M flux i ∧
    (l.foldl (fun s j => callStep M flux j s) s).icov_diag i = rowICovDiag M flux i ∧
    (l.foldl (fun s j => callStep M flux j s) s).icov_offdiag i = rowICovOffdiag M flux i ∧
    (l.foldl (fun s j => callStep M flux j s) s).q_norm i = rowQnorm M flux i := by
  induction l generalizing s with
  | nil => cases h
  | cons a t ih =>
    simp only [List.foldl_cons]
    by_cases ht : i ∈ t
    · exact ih (callStep M flux a s) ht
    · have hia : i = a := by
        rcases List.mem_cons.mp h with h1 | h2
        · exact h1
        · exact absurd h2 ht
      subst hia
      obtain ⟨h1, h2, h3, h4⟩ := callFold_untouched M flux t (callStep M flux i s) i ht
      refine ⟨h1.trans ?_, h2.trans ?_, h3.trans ?_, h4.trans ?_⟩ <;>
        simp [callStep, Function.update_same]

/-- C3 (code defect): because of the `n_models = 10` override, the
evaluation loop never touches any grid row with index 10 or beyond --
those rows of every written output array keep their arbitrary initial
(`np.empty`) contents, for every grid, contradicting evaluation of
every grid row. -/
theorem call_truncates_rows_beyond_ten {nf : ℕ} (M : TrunchenModel nf)
    (flux : ℕ → Fin nf → ℝ) (s0 : CallState nf) (j : ℕ) :
    (callArrays M flux s0).sigmas (10 + j) = s0.sigmas (10 + j) ∧
    (callArrays M flux s0).icov_diag (10 + j) = s0.icov_diag (10 + j) ∧
    (callArrays M flux s0).icov_offdiag (10 + j) = s0.icov_offdiag (10 + j) ∧
    (callArrays M flux s0).q_norm (10 + j) = s0.q_norm (10 + j) :=
  callFold_untouched M flux (List.range nModelsOverride) s0 (10 + j)
    (by simp [nModelsOverride])

/-- C4: for every evaluated grid row (the loop covers rows 0..9), the
populated `sigmas` row holds, per filter, the square root of the
corresponding diagonal entry of that row's distance-weighted
interpolated covariance matrix.  (The value is never returned: the
`return` statement names `sigma`, an undefined variable.) -/
theorem call_sigmas_is_sqrt_cov_diag {nf : ℕ} (M : TrunchenModel nf)
    (flux : ℕ → Fin nf → ℝ) (s0 : CallState nf) (i : Fin 10) (c : Fin nf) :
    (callArrays M flux s0).sigmas (i : ℕ) c =
      Real.sqrt (interpCovMatrix M flux (i : ℕ) c c) := by
  have h := callFold_written M flux (List.range nModelsOverride) s0 (i : ℕ)
    (by simp [nModelsOverride, i.isLt])
  unfold callArrays
  rw [h.1]
  rfl

/-- C10: no iteration of the per-row loop writes to the bias or
completeness arrays; at the `return` statement they are exactly the
initial allocations, whatever the AST statistics and grid fluxes. -/
theorem call_bias_compl_untouched {nf : ℕ} (M : TrunchenModel nf)
    (flux : ℕ → Fin nf → ℝ) (s0 : CallState nf) :
    (callArrays M flux s0).bias = s0.bias ∧
    (callArrays M flux s0).compl = s0.compl := by
  have h : ∀ (l : List ℕ) (s : CallState nf),
      (l.foldl (fun s j => callStep M flux j s) s).bias = s.bias ∧
      (l.foldl (fun s j => callStep M flux j s) s).compl = s.compl := by
    intro l
    induction l with
    | nil => exact fun s => ⟨rfl, rfl⟩
    | cons a t ih =>
      intro s
      simp only [List.foldl_cons]
      exact ih (callStep M flux a s)
  exact h (List.range nModelsOverride) s0

/-- C8 counterexample: with 6 retained models the query still produces
`queryNeighborCount = 10` result slots (scipy pads with out-of-range
indices), not `min(10, 6) = 6`. -/
theorem neighbor_count_not_min_cex :
    (nnIndices (List.replicate 6 fun _ : Fin 1 => (0 : ℝ)) (fun _ => 0)
      queryNeighborCount).length ≠ min 10 6 := by
  unfold nnIndices queryNeighborCount
  simp

/-- C8 amended: the number of neighbors requested is the fixed
`queryNeighborCount = 10`, independent of the number K of retained
models, and the query result always has 10 entries; the requested count
coincides with `min(10, K)` exactly when `K` is at least 10 (below
that, no all-K fallback exists -- the padded entries carry the
out-of-range index K). -/
theorem neighbor_count_fixed_ten {nf : ℕ} (pts : List (Fin nf → ℝ)) (q : Fin nf → ℝ) :
    (nnIndices pts q queryNeighborCount).length = queryNeighborCount ∧
    (queryNeighborCount = min 10 pts.length ↔ 10 ≤ pts.length) := by
  constructor
  · unfold nnIndices queryNeighborCount
    simp
    omega
  · show 10 = min 10 pts.length ↔ 10 ≤ pts.length
    omega

/-! ## Packing and unpacking of the inverse covariance (lines 311-319) -/

/-- The flat position of strictly-upper entry `(k, l)` in the `m`-counter
packing order of lines 311-319: all rows before `k` contribute
`nf-1-j` entries each, then `l-k-1` entries of row `k` precede. -/
def packPos (nf k l : ℕ) : ℕ :=
  (∑ j ∈ Finset.range k, (nf - 1 - j)) + (l - k - 1)

/-- Modelled from the spec: the likelihood-evaluator side unpacking of
the compact storage is not part of this file's source; per the spec it
mirrors the packed strictly-upper entries onto both triangles around
the stored diagonal. -/
def unpackICov (nf : ℕ) (d : ℕ → ℝ) (od : List ℝ) : ℕ → ℕ → ℝ := fun k l =>
  if k = l then d k
  else if k < l then od.getD (packPos nf k l) 0
  else od.getD (packPos nf l k) 0

theorem foldr_funext {α β : Type} (g h : α → β → β) (init : β) (l : List α)
    (he : ∀ a b, g a b = h a b) : l.foldr g init = l.foldr h init := by
  induction l with
  | nil => rfl
  | cons x t ih => simp only [List.foldr_cons, he, ih]

/-- Peeling the first packed row: the packing for `nf + 1` filters is
row 0 followed by the packing of the index-shifted matrix on `nf`
filters. -/
theorem packOffdiag_succ (nf : ℕ) (f : ℕ → ℕ → ℝ) :
    packOffdiag (nf + 1) f =
      ((List.range nf).map fun t => f 0 (1 + t)) ++
      packOffdiag nf (fun a b => f (a + 1) (b + 1)) := by
  unfold packOffdiag
  cases nf with
  | zero => rfl
  | succ m =>
    conv_lhs => rw [show m + 1 + 1 - 1 = m + 1 from rfl,
      List.range_succ_eq_map, List.foldr_cons, List.foldr_map]
    congr 1
    refine foldr_funext _ _ _ _ fun k acc => ?_
    congr 1
    rw [show m + 1 - k.succ = m + 1 - 1 - k by omega]
    refine List.map_congr_left fun t ht => ?_
    show f (k + 1) (k + 1 + 1 + t) = f (k + 1) (k + 1 + t + 1)
    congr 1
    omega

/-- The packed list holds entry `(k, l)` of the packed function at flat
position `packPos nf k l`, for every strictly-upper in-range pair. -/
theorem packOffdiag_getD (nf k l : ℕ) (f : ℕ → ℕ → ℝ) (h1 : k < l) (h2 : l < nf) :
    (packOffdiag nf f).getD (packPos nf k l) 0 = f k l := by
  induction k generalizing nf l f with
  | zero =>
    obtain ⟨m, rfl⟩ : ∃ m, nf = m + 1 := ⟨nf - 1, by omega⟩
    rw [packOffdiag_succ]
    rw [show packPos (m + 1) 0 l = l - 1 by unfold packPos; simp]
    have hlen : l - 1 < ((List.range m).map fun t => f 0 (1 + t)).length := by
      simp
      omega
    rw [List.getD_append _ _ _ _ hlen, List.getD_eq_getElem _ _ hlen,
      List.getElem_map, List.getElem_range]
    congr 1
    omega
  | succ k ih =>
    obtain ⟨m, rfl⟩ : ∃ m, nf = m + 1 := ⟨nf - 1, by omega⟩
    rw [packOffdiag_succ]
    have hpp : packPos (m + 1) (k + 1) l = m + packPos m k (l - 1) := by
      unfold packPos
      rw [Finset.sum_range_succ']
      have hcong : ∀ j ∈ Finset.range k, m + 1 - 1 - (j + 1) = m - 1 - j :=
        fun j _ => by omega
      rw [Finset.sum_congr rfl hcong]
      generalize (∑ j ∈ Finset.range k, (m - 1 - j)) = S
      omega
    rw [hpp]
    have hblen : ((List.range m).map fun t => f 0 (1 + t)).length = m := by simp
    rw [List.getD_append_right _ _ _ _ (by omega), hblen,
      show m + packPos m k (l - 1) - m = packPos m k (l - 1) by omega]
    rw [ih m (l - 1) _ (by omega) (by omega)]
    show f (k + 1) (l - 1 + 1) = f (k + 1) l
    congr 1
    omega

/-- The packed off-diagonal list holds `nf*(nf-1)/2` entries. -/
theorem packOffdiag_length (nf : ℕ) (f : ℕ → ℕ → ℝ) :
    (packOffdiag nf f).length = nf * (nf - 1) / 2 := by
  suffices h : (packOffdiag nf f).length * 2 = nf * (nf - 1) by
    omega
  induction nf generalizing f with
  | zero => rfl
  | succ m ih =>
    rw [packOffdiag_succ, List.length_append, List.length_map, List.length_range,
      Nat.add_mul, ih]
    cases m with
    | zero => rfl
    | succ j =>
      simp
      ring

/-- Round trip: unpacking the packed diagonal and strictly-upper
entries of a symmetric (on the index range) function reconstructs it
exactly on that range. -/
theorem unpack_pack {nf : ℕ} (g : ℕ → ℕ → ℝ)
    (hg : ∀ a b, a < nf → b < nf → g a b = g b a) (k l : ℕ)
    (hk : k < nf) (hl : l < nf) :
    unpackICov nf (fun j => g j j) (packOffdiag nf g) k l = g k l := by
  unfold unpackICov
  rcases lt_trichotomy k l with h | h | h
  · rw [if_neg (by omega), if_pos h, packOffdiag_getD nf k l g h hl]
  · subst h
    rw [if_pos rfl]
  · rw [if_neg (by omega), if_neg (by omega), packOffdiag_getD nf l k g h hk,
      hg l k hl hk]

/-- A weighted average of symmetric matrices is symmetric. -/
theorem weightedAvgCov_symm {nf : ℕ} (covs : List (Matrix (Fin nf) (Fin nf) ℝ))
    (idxs : List ℕ) (w : List ℝ) (hsym : ∀ A ∈ covs, A.transpose = A) :
    (weightedAvgCov covs idxs w).transpose = weightedAvgCov covs idxs w := by
  have hentry : ∀ (p : ℕ) (c d : Fin nf),
      (covs.getD p 0) d c = (covs.getD p 0) c d := by
    intro p c d
    by_cases hp : p < covs.length
    · rw [List.getD_eq_getElem _ _ hp]
      have hA := hsym (covs[p]) (List.getElem_mem hp)
      conv_rhs => rw [← hA]
      rw [Matrix.transpose_apply]
    · rw [List.getD_eq_default _ _ (by omega)]
      simp
  ext c d
  show weightedAvgCov covs idxs w d c = weightedAvgCov covs idxs w c d
  unfold weightedAvgCov
  simp only [Matrix.of_apply]
  congr 1
  refine Finset.sum_congr rfl fun j _ => ?_
  rw [hentry (idxs.getD j 0) c d]

/-- The interpolated covariance matrix of any grid row is symmetric
whenever the stacked AST covariance matrices are. -/
theorem interpCovMatrix_symm {nf : ℕ} (M : TrunchenModel nf)
    (flux : ℕ → Fin nf → ℝ) (i : ℕ)
    (hsym : ∀ A ∈ M.cov_matrices, A.transpose = A) :
    (interpCovMatrix M flux i).transpose = interpCovMatrix M flux i :=
  weightedAvgCov_symm _ _ _ hsym

/-- The inverse of the interpolated covariance matrix is symmetric
whenever the stacked AST covariance matrices are. -/
theorem rowInvCov_symm {nf : ℕ} (M : TrunchenModel nf)
    (flux : ℕ → Fin nf → ℝ) (i : ℕ)
    (hsym : ∀ A ∈ M.cov_matrices, A.transpose = A) :
    (rowInvCov M flux i).transpose = rowInvCov M flux i := by
  unfold rowInvCov
  rw [Matrix.transpose_nonsing_inv, interpCovMatrix_symm M flux i hsym]

/-- View of a per-filter row as a natural-number-indexed function, 0
outside the filter range. -/
def finRowToNat {nf : ℕ} (g : Fin nf → ℝ) : ℕ → ℝ :=
  fun k => if h : k < nf then g ⟨k, h⟩ else 0

/-- C9: for every evaluated grid row, the packed inverse covariance
consists of the per-filter diagonal entries plus `nf*(nf-1)/2`
strictly-upper off-diagonal entries in increasing row-then-column
order, and unpacking them (mirroring the upper triangle) reconstructs
the full symmetric inverse covariance matrix exactly.  The symmetry
of the stacked AST covariance matrices is the hypothesis making the
inverse symmetric. -/
theorem packed_icov_roundtrip {nf : ℕ} (M : TrunchenModel nf)
    (flux : ℕ → Fin nf → ℝ) (s0 : CallState nf) (i : Fin 10) (k l : Fin nf)
    (hsym : ∀ A ∈ M.cov_matrices, A.transpose = A) :
    ((callArrays M flux s0).icov_offdiag (i : ℕ)).length = nf * (nf - 1) / 2 ∧
    (callArrays M flux s0).icov_diag (i : ℕ) k = rowInvCov M flux (i : ℕ) k k ∧
    unpackICov nf (finRowToNat ((callArrays M flux s0).icov_diag (i : ℕ)))
      ((callArrays M flux s0).icov_offdiag (i : ℕ)) (k : ℕ) (l : ℕ) =
      rowInvCov M flux (i : ℕ) k l := by
  obtain ⟨-, hdiag, hoff, -⟩ :=
    callFold_written M flux (List.range nModelsOverride) s0 (i : ℕ)
      (by simp [nModelsOverride, i.isLt])
  unfold callArrays
  rw [hdiag, hoff]
  have hg : ∀ a b, a < nf → b < nf →
      matToFun (rowInvCov M flux (i : ℕ)) a b =
      matToFun (rowInvCov M flux (i : ℕ)) b a := by
    intro a b ha hb
    unfold matToFun
    rw [dif_pos ⟨ha, hb⟩, dif_pos ⟨hb, ha⟩]
    have hsymInv := rowInvCov_symm M flux (i : ℕ) hsym
    conv_lhs => rw [← hsymInv]
    rw [Matrix.transpose_apply]
  have hdiagfun : finRowToNat (rowICovDiag M flux (i : ℕ)) =
      fun j => matToFun (rowInvCov M flux (i : ℕ)) j j := by
    funext j
    unfold finRowToNat matToFun rowICovDiag
    by_cases hj : j < nf
    · rw [dif_pos hj, dif_pos ⟨hj, hj⟩]
    · rw [dif_neg hj, dif_neg (by tauto)]
  refine ⟨?_, rfl, ?_⟩
  · unfold rowICovOffdiag
    exact packOffdiag_length nf _
  · rw [hdiagfun]
    unfold rowICovOffdiag
    rw [unpack_pack (matToFun (rowInvCov M flux (i : ℕ))) hg (k : ℕ) (l : ℕ)
      k.isLt l.isLt]
    unfold matToFun
    rw [dif_pos ⟨k.isLt, l.isLt⟩]

/-- A concrete two-filter model with no stacked covariance matrices and
an all-zero initial state, used to instantiate witnesses. -/
noncomputable def exModel : TrunchenModel 2 :=
  ⟨fun _ => 1, [], []⟩

/-- An all-zero initial array state for witnesses. -/
noncomputable def exState : CallState 2 :=
  ⟨fun _ _ => 0, fun _ _ => 0, fun _ _ => 0, fun _ => [], fun _ => 0, fun _ _ => 0⟩

/-- Witness for C9 at a concrete two-filter instance. -/
theorem packed_icov_roundtrip_witness :
    ((callArrays exModel (fun _ _ => 0) exState).icov_offdiag
      ((0 : Fin 10) : ℕ)).length = 2 * (2 - 1) / 2 ∧
    (callArrays exModel (fun _ _ => 0) exState).icov_diag ((0 : Fin 10) : ℕ)
      (0 : Fin 2) = rowInvCov exModel (fun _ _ => 0) ((0 : Fin 10) : ℕ) 0 0 ∧
    unpackICov 2
      (finRowToNat ((callArrays exModel (fun _ _ => 0) exState).icov_diag
        ((0 : Fin 10) : ℕ)))
      ((callArrays exModel (fun _ _ => 0) exState).icov_offdiag ((0 : Fin 10) : ℕ))
      ((0 : Fin 2) : ℕ) ((1 : Fin 2) : ℕ) =
      rowInvCov exModel (fun _ _ => 0) ((0 : Fin 10) : ℕ) 0 1 :=
  packed_icov_roundtrip exModel (fun _ _ => 0) exState 0 0 1
    (by simp [exModel])
